import Mathlib

/-!
Verification of the statistical enrichment engine of
PlantRegulatoryNetworkTool (src/services/enrichment.ts).

The TypeScript source computes with IEEE doubles; here every numeric
quantity is embedded by its exact value in ℚ (the hypergeometric PMF,
computed in the source as exp of a sum of log-factorials, is embedded by
the exact binomial-coefficient ratio it denotes, with the convention that
an out-of-range log-binomial, -Infinity in the source, denotes the
probability 0).  The JavaScript value Infinity returned for degenerate
odds ratios is embedded as the top element of WithTop ℚ.  JS Set and Map
are embedded as lists in insertion order (a Set never holds duplicates;
construction via repeated adds is mirrored by append-if-absent folds).
-/

/-- Result record of fisherRightTail in enrichment.ts. -/
structure FisherResult where
  pValue : ℚ
  oddsRatio : WithTop ℚ
deriving DecidableEq

/-- Math.min on exact rationals, written as a plain conditional so that the
kernel can evaluate it on concrete inputs. -/
def qmin (x y : ℚ) : ℚ := if x ≤ y then x else y

/-- hypergeomPmf from enrichment.ts: P(X = k) for X ~ Hypergeom(N, K, n).
The source computes exp (logChoose K k + logChoose (N-K) (n-k) - logChoose N n);
an out-of-range logChoose is -Infinity and makes the value 0, which here is
automatic because Nat.choose vanishes out of range. -/
def hypergeomPmf (k N K n : ℕ) : ℚ :=
  ((K.choose k : ℚ) * ((N - K).choose (n - k) : ℚ)) / ((N.choose n : ℚ))

/-- fisherRightTail from enrichment.ts: right tail of the hypergeometric
distribution summed for k = a .. min (a+c) (a+b), p-value capped at 1, and
the odds ratio (a*d)/(b*c) with the degenerate b*c = 0 cases mapped to
Infinity (a > 0) or 0. -/
def fisherRightTail (a b c d : ℕ) : FisherResult :=
  let N := a + b + c + d
  let K := a + c
  let n := a + b
  let maxK := min K n
  let p := ∑ k in Finset.Icc a maxK, hypergeomPmf k N K n
  let denom : ℚ := (b : ℚ) * (c : ℚ)
  { pValue := qmin 1 p,
    oddsRatio := if denom = 0 then (if 0 < a then ⊤ else (0 : WithTop ℚ))
      else (((a : ℚ) * (d : ℚ) / denom : ℚ) : WithTop ℚ) }

/-- The sorted view built by bhFdr: the input p-values paired with their
original indices (List.enum mirrors pValues.map((p, idx) => ({p, idx}))) and
stably sorted by ascending p (JS Array.prototype.sort is stable). -/
def sortPairs (ps : List ℚ) : List (ℕ × ℚ) :=
  List.insertionSort (fun x y => x.2 ≤ y.2) ps.enum

/-- The raw Benjamini-Hochberg quantities p * m / rank over a list in sorted
order, rank being 1-based position. -/
def rawQs (m : ℕ) (vals : List ℚ) : List ℚ :=
  vals.enum.map (fun x => x.2 * (m : ℚ) / ((x.1 : ℚ) + 1))

/-- The running-minimum pass of bhFdr: walking from the largest rank down,
each entry is clamped by its successor, the last by the initial prev = 1. -/
def clampDesc : List ℚ → List ℚ
  | [] => []
  | x :: xs => qmin x ((clampDesc xs).headD 1) :: clampDesc xs

/-- The scatter phase of bhFdr: qValues[indexed[i].idx] = q, a fold of
list writes over an initial array. -/
def scatter (writes : List (ℕ × ℚ)) (init : List ℚ) : List ℚ :=
  writes.foldl (fun acc w => acc.set w.1 w.2) init

/-- bhFdr from enrichment.ts: sort p-values ascending remembering original
indices, form raw q = p * m / rank, clamp by a running minimum from the
largest rank down (prev initialized to 1), and scatter the clamped values
back to the original positions of an array initially filled with 1.  The
loop runs from i = m-1 down to 0, hence the reverse. -/
def bhFdr (ps : List ℚ) : List ℚ :=
  let m := ps.length
  let indexed := sortPairs ps
  let qs := clampDesc (rawQs m (indexed.map Prod.snd))
  scatter (((indexed.map Prod.fst).zip qs).reverse) (List.replicate m 1)

/-- EnrichmentResult record from enrichment.ts. -/
structure EnrichmentResult where
  tf : String
  overlap : ℕ
  tfTargets : ℕ
  pathwayGenes : ℕ
  oddsRatio : WithTop ℚ
  pValue : ℚ
  fdr : ℚ
deriving DecidableEq

/-- Restriction of a gene collection to the universe, mirroring the Set
construction in computeEnrichment: each gene is uppercased, kept only when
the universe has it, and added only if not already present. -/
def restrictToUniverse (genes univ : List String) : List String :=
  genes.foldl (fun acc g =>
    let gene := g.toUpper
    if gene ∈ univ then (if gene ∈ acc then acc else acc ++ [gene]) else acc) []

/-- The per-TF contingency table of computeEnrichment:
a = |targetGenes ∩ pathway| via Array.from(targetGenes).filter(pathway.has),
b = |targetGenes| - a, c = |pathway| - a, d = universeSize - a - b - c. -/
structure Contingency where
  a : ℕ
  b : ℕ
  c : ℕ
  d : ℕ
deriving DecidableEq

/-- The contingency cells exactly as computeEnrichment forms them (the
subtractions never truncate on reachable inputs; see the invariant
theorem). -/
def contingencyTable (targetGenes pathway : List String) (universeSize : ℕ) :
    Contingency :=
  let a := (targetGenes.filter (fun g => decide (g ∈ pathway))).length
  let b := targetGenes.length - a
  let c := pathway.length - a
  let d := universeSize - a - b - c
  ⟨a, b, c, d⟩

/-- The contingency table computeEnrichment builds for one TF entry: both
the target list and the term gene list restricted to the universe, with
the universe size as population. -/
def tfContingency (targets pathwayGenes univ : List String) : Contingency :=
  contingencyTable (restrictToUniverse targets univ)
    (restrictToUniverse pathwayGenes univ) univ.length

/-- The comparator of the final sort in computeEnrichment,
(a, b) => a.pValue - b.pValue || b.overlap - a.overlap, as the total
preorder it induces: ascending p-value, ties broken by descending
overlap. -/
def resultLE (x y : EnrichmentResult) : Prop :=
  x.pValue < y.pValue ∨ (x.pValue = y.pValue ∧ y.overlap ≤ x.overlap)

instance resultLE.instDecidableRel : DecidableRel resultLE := fun x y => by
  unfold resultLE
  infer_instance

/-- The body of the tfTargets.forEach loop of computeEnrichment: restrict
the TF's targets to the universe, build the contingency table, skip the TF
when the restricted target set or the restricted pathway is empty,
otherwise append the Fisher result row (fdr placeholder 1). -/
def enrichmentStep (univ pathway : List String) (acc : List EnrichmentResult)
    (e : String × List String) : List EnrichmentResult :=
  let targetGenes := restrictToUniverse e.2 univ
  let ct := contingencyTable targetGenes pathway univ.length
  if targetGenes.length = 0 ∨ pathway.length = 0 then acc
  else
    let fr := fisherRightTail (Contingency.a ct) (Contingency.b ct)
      (Contingency.c ct) (Contingency.d ct)
    acc ++ [{ tf := e.1, overlap := Contingency.a ct,
              tfTargets := targetGenes.length,
              pathwayGenes := pathway.length,
              oddsRatio := FisherResult.oddsRatio fr,
              pValue := fr.pValue, fdr := 1 }]

/-- computeEnrichment from enrichment.ts.  tfTargets is the Map in
insertion order (keys unique in a real Map), univ the gene-universe Set.
Fold the per-TF loop over the map, then backfill BH FDR values by original
index and sort by the result comparator. -/
def computeEnrichment (tfTargets : List (String × List String))
    (pathwayGenes univ : List String) : List EnrichmentResult :=
  let pathway := restrictToUniverse pathwayGenes univ
  let results : List EnrichmentResult :=
    tfTargets.foldl (enrichmentStep univ pathway) []
  let fdrs := bhFdr (results.map (fun r => r.pValue))
  let withFdr := List.zipWith (fun r q => { r with fdr := q }) results fdrs
  List.insertionSort resultLE withFdr

/-- The index list of the sorted view of bhFdr: for each sorted position,
the original position its q-value is scattered back to. -/
def bhKeys (ps : List ℚ) : List ℕ := (sortPairs ps).map Prod.fst

/-- The q-values of bhFdr in sorted order, after the running-minimum
pass. -/
def bhQs (ps : List ℚ) : List ℚ :=
  clampDesc (rawQs ps.length ((sortPairs ps).map Prod.snd))

/-- Position of the first occurrence of a key in a list of keys. -/
def findPos (j : ℕ) : List ℕ → ℕ
  | [] => 0
  | i :: is => if i = j then 0 else findPos j is + 1

/-- The input p-values in ascending order (the snd projection of the
sorted view of bhFdr). -/
def sortedVals (ps : List ℚ) : List ℚ := List.insertionSort (fun x y : ℚ => x ≤ y) ps

/-- Number of entries of ps strictly below v. -/
def countLt (ps : List ℚ) (v : ℚ) : ℕ := ps.countP (fun p => decide (p < v))

/-- The q-value bhFdr assigns to an input entry of value v, expressed as a
function of the value and of the multiset of inputs alone: the clamped
q-value at the first sorted position holding v. -/
def valueQ (ps : List ℚ) (v : ℚ) : ℚ :=
  (clampDesc (rawQs ps.length (sortedVals ps))).getD (countLt ps v) 1

instance pairSndLE.isTotal : IsTotal (ℕ × ℚ) (fun x y => x.2 ≤ y.2) :=
  ⟨fun x y => le_total x.2 y.2⟩

instance pairSndLE.isTrans : IsTrans (ℕ × ℚ) (fun x y => x.2 ≤ y.2) :=
  ⟨fun _ _ _ h1 h2 => le_trans h1 h2⟩

instance valLE.isTotal : IsTotal ℚ (fun x y : ℚ => x ≤ y) :=
  ⟨fun x y => le_total x y⟩

instance valLE.isTrans : IsTrans ℚ (fun x y : ℚ => x ≤ y) :=
  ⟨fun _ _ _ h1 h2 => le_trans h1 h2⟩

instance valLE.isAntisymm : IsAntisymm ℚ (fun x y : ℚ => x ≤ y) :=
  ⟨fun _ _ h1 h2 => le_antisymm h1 h2⟩

instance valLE.isRefl : IsRefl ℚ (fun x y : ℚ => x ≤ y) :=
  ⟨fun _ => le_refl _⟩

instance resultLE.isTotal : IsTotal EnrichmentResult resultLE := by
  constructor
  intro x y
  unfold resultLE
  rcases lt_trichotomy x.pValue y.pValue with h | h | h
  · exact Or.inl (Or.inl h)
  · rcases le_total y.overlap x.overlap with ho | ho
    · exact Or.inl (Or.inr ⟨h, ho⟩)
    · exact Or.inr (Or.inr ⟨h.symm, ho⟩)
  · exact Or.inr (Or.inl h)

instance resultLE.isTrans : IsTrans EnrichmentResult resultLE := by
  constructor
  intro x y z hxy hyz
  unfold resultLE at hxy hyz ⊢
  rcases hxy with h1 | ⟨e1, o1⟩
  · rcases hyz with h2 | ⟨e2, o2⟩
    · exact Or.inl (h1.trans h2)
    · exact Or.inl (lt_of_lt_of_eq h1 e2)
  · rcases hyz with h2 | ⟨e2, o2⟩
    · exact Or.inl (lt_of_eq_of_lt e1 h2)
    · exact Or.inr ⟨e1.trans e2, o2.trans o1⟩

/-! ### Basic facts about qmin -/

lemma qmin_eq_min (x y : ℚ) : qmin x y = min x y := by
  by_cases h : x ≤ y <;> simp [qmin, min_def, h]

/-! ### Basic facts about fisherRightTail -/

lemma fisher_pValue_def (a b c d : ℕ) :
    (fisherRightTail a b c d).pValue =
      qmin 1 (∑ k in Finset.Icc a (min (a + c) (a + b)),
        hypergeomPmf k (a + b + c + d) (a + c) (a + b)) := rfl

lemma fisher_oddsRatio_def (a b c d : ℕ) :
    FisherResult.oddsRatio (fisherRightTail a b c d) =
      if (b : ℚ) * (c : ℚ) = 0 then (if 0 < a then ⊤ else (0 : WithTop ℚ))
      else (((a : ℚ) * (d : ℚ) / ((b : ℚ) * (c : ℚ)) : ℚ) : WithTop ℚ) := rfl

lemma hypergeomPmf_nonneg (k N K n : ℕ) : 0 ≤ hypergeomPmf k N K n := by
  unfold hypergeomPmf
  positivity

/-- C1: for every contingency table of naturals the p-value lies in [0, 1];
the lower bound holds because every hypergeometric PMF term is
non-negative, the upper bound because the sum is capped at 1. -/
theorem fisher_pValue_mem_unitInterval (a b c d : ℕ) :
    0 ≤ (fisherRightTail a b c d).pValue ∧ (fisherRightTail a b c d).pValue ≤ 1 := by
  rw [fisher_pValue_def, qmin_eq_min]
  refine ⟨le_min (by norm_num) (Finset.sum_nonneg fun k _ => hypergeomPmf_nonneg _ _ _ _), min_le_left _ _⟩

/-- C7: the odds ratio is (a*d)/(b*c) whenever b*c is non-zero, and in the
degenerate b*c = 0 case it is Infinity for a > 0 and 0 for a = 0; the
function is total (the source never throws). -/
theorem fisher_oddsRatio_formula (a b c d : ℕ) :
    FisherResult.oddsRatio (fisherRightTail a b c d) =
      if b * c = 0 then (if 0 < a then (⊤ : WithTop ℚ) else 0)
      else ((((a * d : ℕ) : ℚ) / ((b * c : ℕ) : ℚ) : ℚ) : WithTop ℚ) := by
  rw [fisher_oddsRatio_def]
  have hcast : ((b : ℚ) * (c : ℚ) = 0) ↔ b * c = 0 := by
    constructor <;> intro h <;> exact_mod_cast h
  by_cases h : b * c = 0
  · rw [if_pos (hcast.mpr h), if_pos h]
  · rw [if_neg (fun hq => h (hcast.mp hq)), if_neg h]
    norm_cast

/-- C9: increasing a with b, c, d held fixed never decreases the odds
ratio, including the degenerate b*c = 0 branch. -/
theorem fisher_oddsRatio_mono (b c d : ℕ) {a1 a2 : ℕ} (h : a1 ≤ a2) :
    FisherResult.oddsRatio (fisherRightTail a1 b c d) ≤
      FisherResult.oddsRatio (fisherRightTail a2 b c d) := by
  rw [fisher_oddsRatio_def, fisher_oddsRatio_def]
  by_cases hbc : (b : ℚ) * (c : ℚ) = 0
  · rw [if_pos hbc, if_pos hbc]
    split_ifs with h1 h2
    · exact le_refl _
    · exact absurd (lt_of_lt_of_le h1 h) h2
    · exact le_top
    · exact le_refl _
  · rw [if_neg hbc, if_neg hbc]
    have hpos : (0 : ℚ) < (b : ℚ) * (c : ℚ) :=
      lt_of_le_of_ne (by positivity) (Ne.symm hbc)
    refine WithTop.coe_le_coe.mpr ?_
    gcongr

/-- Witness for C9 at the concrete table b = c = d = 1, a from 1 to 2. -/
theorem fisher_oddsRatio_mono_witness :
    FisherResult.oddsRatio (fisherRightTail 1 1 1 1) ≤
      FisherResult.oddsRatio (fisherRightTail 2 1 1 1) :=
  fisher_oddsRatio_mono 1 1 1 (by norm_num)

/-! ### Literal bhFdr examples (claim C4)

With pValues = [0.01, 0.50, 0.02] the sorted raw q-values are
0.01*3/1 = 0.03 at rank 1, 0.02*3/2 = 0.03 at rank 2 and 0.50*3/3 = 0.5 at
rank 3, so the code returns [0.03, 0.5, 0.03] in original order; the
spec literal [0.03, 0.5, 0.06] (raw 0.02*3 without the division by rank 2)
does not match the code. -/

/-- C4 counterexample: on the second literal input of the spec the code
does not return [0.03, 0.5, 0.06]. -/
theorem bhFdr_literal_counterexample :
    bhFdr [0.01, 0.5, 0.02] ≠ [0.03, 0.5, 0.06] := by
  with_unfolding_all decide

/-- C4 amended: the first literal example is as the spec states, while the
second returns [0.03, 0.5, 0.03] in original input order (the raw q-value
of p = 0.02 at sorted rank 2 is 0.02*3/2 = 0.03, not 0.06). -/
theorem bhFdr_literal_examples :
    bhFdr [0.01, 0.02, 0.03] = [0.03, 0.03, 0.03] ∧
      bhFdr [0.01, 0.5, 0.02] = [0.03, 0.5, 0.03] := by
  constructor <;> with_unfolding_all decide

/-! ### Structure of bhFdr -/

lemma sortPairs_length (ps : List ℚ) : (sortPairs ps).length = ps.length := by
  rw [sortPairs, List.length_insertionSort, List.enum_length]

lemma sortPairs_perm (ps : List ℚ) : List.Perm (sortPairs ps) ps.enum :=
  List.perm_insertionSort _ _

lemma rawQs_length (m : ℕ) (vals : List ℚ) : (rawQs m vals).length = vals.length := by
  rw [rawQs, List.length_map, List.enum_length]

lemma clampDesc_length (l : List ℚ) : (clampDesc l).length = l.length := by
  induction l with
  | nil => rfl
  | cons x xs ih => simp [clampDesc, ih]

lemma scatter_length (ws : List (ℕ × ℚ)) (init : List ℚ) :
    (scatter ws init).length = init.length := by
  induction ws generalizing init with
  | nil => rfl
  | cons w ws ih => rw [scatter, List.foldl_cons, ← scatter, ih, List.length_set]

lemma bhKeys_perm_range (ps : List ℚ) : List.Perm (bhKeys ps) (List.range ps.length) := by
  rw [bhKeys, ← List.enum_map_fst ps]
  exact (sortPairs_perm ps).map Prod.fst

lemma bhKeys_nodup (ps : List ℚ) : (bhKeys ps).Nodup :=
  (bhKeys_perm_range ps).nodup_iff.mpr (List.nodup_range _)

lemma bhKeys_mem (ps : List ℚ) {j : ℕ} : j ∈ bhKeys ps ↔ j < ps.length := by
  rw [(bhKeys_perm_range ps).mem_iff, List.mem_range]

lemma bhKeys_length (ps : List ℚ) : (bhKeys ps).length = ps.length := by
  rw [bhKeys, List.length_map, sortPairs_length]

lemma bhQs_length (ps : List ℚ) : (bhQs ps).length = ps.length := by
  rw [bhQs, clampDesc_length, rawQs_length, List.length_map, sortPairs_length]

lemma bhFdr_def (ps : List ℚ) :
    bhFdr ps = scatter (((bhKeys ps).zip (bhQs ps)).reverse)
      (List.replicate ps.length 1) := rfl

/-- C10 part 1: bhFdr preserves the length of its input. -/
lemma bhFdr_length (ps : List ℚ) : (bhFdr ps).length = ps.length := by
  rw [bhFdr_def, scatter_length, List.length_replicate]

lemma clampDesc_mem_le_one (l : List ℚ) : ∀ x ∈ clampDesc l, x ≤ 1 := by
  induction l with
  | nil => intro x hx; cases hx
  | cons y ys ih =>
    intro x hx
    rcases List.mem_cons.mp hx with rfl | hx
    · rw [qmin_eq_min]
      rcases hys : clampDesc ys with _ | ⟨z, zs⟩
      · simp
      · refine le_trans (min_le_right _ _) ?_
        have : z ∈ clampDesc ys := by rw [hys]; exact List.mem_cons_self _ _
        simpa using ih z this
    · exact ih x hx

lemma clampDesc_mem_nonneg {l : List ℚ} (hl : ∀ x ∈ l, 0 ≤ x) :
    ∀ y ∈ clampDesc l, 0 ≤ y := by
  induction l with
  | nil => intro y hy; cases hy
  | cons x xs ih =>
    have hxs : ∀ y ∈ xs, 0 ≤ y := fun y hy => hl y (List.mem_cons_of_mem _ hy)
    intro y hy
    rcases List.mem_cons.mp hy with rfl | hy
    · rw [qmin_eq_min]
      refine le_min (hl x (List.mem_cons_self _ _)) ?_
      rcases hys : clampDesc xs with _ | ⟨z, zs⟩
      · simp
      · have : z ∈ clampDesc xs := by rw [hys]; exact List.mem_cons_self _ _
        simpa using ih hxs z this
    · exact ih hxs y hy

lemma scatter_mem (ws : List (ℕ × ℚ)) (init : List ℚ) :
    ∀ q ∈ scatter ws init, q ∈ init ∨ ∃ w ∈ ws, q = w.2 := by
  induction ws generalizing init with
  | nil => intro q hq; exact Or.inl hq
  | cons w ws ih =>
    intro q hq
    rw [scatter, List.foldl_cons, ← scatter] at hq
    rcases ih _ q hq with hin | ⟨w2, hw2, rfl⟩
    · rcases List.mem_or_eq_of_mem_set hin with h | rfl
      · exact Or.inl h
      · exact Or.inr ⟨w, List.mem_cons_self _ _, rfl⟩
    · exact Or.inr ⟨w2, List.mem_cons_of_mem _ hw2, rfl⟩

/-- C10: bhFdr returns a list of the same length as its input, every
returned q-value is at most 1 (the running minimum starts from 1 and the
untouched initial entries are 1), and when every input is non-negative
every returned q-value lies in [0, 1]. -/
theorem bhFdr_length_and_bounds (ps : List ℚ) :
    (bhFdr ps).length = ps.length ∧ (∀ q ∈ bhFdr ps, q ≤ 1) ∧
      ((∀ p ∈ ps, 0 ≤ p) → ∀ q ∈ bhFdr ps, 0 ≤ q ∧ q ≤ 1) := by
  have hq_le : ∀ q ∈ bhFdr ps, q ≤ 1 := by
    intro q hq
    rw [bhFdr_def] at hq
    rcases scatter_mem _ _ q hq with hin | ⟨w, hw, rfl⟩
    · exact le_of_eq (List.eq_of_mem_replicate hin)
    · have : w.2 ∈ bhQs ps := by
        rcases w with ⟨j, q⟩
        exact (List.of_mem_zip (List.mem_reverse.mp hw)).2
      exact clampDesc_mem_le_one _ _ this
  refine ⟨bhFdr_length ps, hq_le, fun hps q hq => ⟨?_, hq_le q hq⟩⟩
  rw [bhFdr_def] at hq
  rcases scatter_mem _ _ q hq with hin | ⟨w, hw, rfl⟩
  · rw [List.eq_of_mem_replicate hin]; norm_num
  · have hmem : w.2 ∈ bhQs ps := by
      rcases w with ⟨j, q⟩
      exact (List.of_mem_zip (List.mem_reverse.mp hw)).2
    refine clampDesc_mem_nonneg ?_ _ hmem
    intro x hx
    rw [rawQs] at hx
    rcases List.mem_map.mp hx with ⟨⟨i, p⟩, hip, rfl⟩
    have hp : p ∈ ps := by
      have hp2 := List.mem_map_of_mem Prod.snd hip
      rw [List.enum_map_snd] at hp2
      rcases List.mem_map.mp hp2 with ⟨pr, hpr, rfl⟩
      have hpr2 : pr ∈ ps.enum := (sortPairs_perm ps).subset hpr
      have hpr3 := List.mem_map_of_mem Prod.snd hpr2
      rwa [List.enum_map_snd] at hpr3
    have h0 : (0 : ℚ) ≤ p := hps p hp
    positivity

/-- Witness for C10 at the concrete input [0.5], whose entries are
non-negative. -/
theorem bhFdr_length_and_bounds_witness :
    (bhFdr [0.5]).length = 1 ∧ (∀ q ∈ bhFdr [0.5], 0 ≤ q ∧ q ≤ 1) := by
  obtain ⟨h1, _, h3⟩ := bhFdr_length_and_bounds [0.5]
  refine ⟨h1, h3 ?_⟩
  intro p hp
  rw [List.mem_singleton] at hp
  subst hp
  norm_num

lemma scatter_getD_of_not_mem (ws : List (ℕ × ℚ)) (init : List ℚ) (j : ℕ) (d : ℚ)
    (hj : j ∉ ws.map Prod.fst) : (scatter ws init).getD j d = init.getD j d := by
  induction ws generalizing init with
  | nil => rfl
  | cons w ws ih =>
    rw [List.map_cons] at hj
    have hj1 : w.1 ≠ j := fun h => hj (h ▸ List.mem_cons_self _ _)
    have hj2 : j ∉ ws.map Prod.fst := fun h => hj (List.mem_cons_of_mem _ h)
    rw [scatter, List.foldl_cons, ← scatter, ih _ hj2]
    by_cases hlt : j < init.length
    · rw [List.getD_eq_getElem _ _ (by rwa [List.length_set]),
        List.getD_eq_getElem _ _ hlt]
      exact List.getElem_set_ne hj1 _
    · rw [List.getD_eq_default _ _ (by rw [List.length_set]; omega),
        List.getD_eq_default _ _ (by omega)]

lemma scatter_getD_of_mem (d : ℚ) (ws : List (ℕ × ℚ)) (init : List ℚ) (j : ℕ) (q : ℚ)
    (hmem : (j, q) ∈ ws) (hnd : (ws.map Prod.fst).Nodup) (hlt : j < init.length) :
    (scatter ws init).getD j d = q := by
  induction ws generalizing init with
  | nil => cases hmem
  | cons w ws ih =>
    obtain ⟨w1, w2⟩ := w
    rw [List.map_cons, List.nodup_cons] at hnd
    rw [scatter, List.foldl_cons, ← scatter]
    rcases List.mem_cons.mp hmem with heq | hmem2
    · cases heq
      rw [scatter_getD_of_not_mem _ _ _ _ (by simpa using hnd.1),
        List.getD_eq_getElem _ _ (by rw [List.length_set]; exact hlt)]
      exact List.getElem_set_self _
    · exact ih _ hmem2 hnd.2 (by rwa [List.length_set])

lemma findPos_lt {j : ℕ} {keys : List ℕ} (h : j ∈ keys) :
    findPos j keys < keys.length := by
  induction keys with
  | nil => cases h
  | cons i is ih =>
    by_cases hij : i = j
    · simp [findPos, hij]
    · have hmem : j ∈ is := by
        rcases List.mem_cons.mp h with h1 | h2
        · exact absurd h1.symm hij
        · exact h2
      simp only [findPos, if_neg hij, List.length_cons]
      exact Nat.succ_lt_succ (ih hmem)

lemma findPos_getD {j : ℕ} {keys : List ℕ} (h : j ∈ keys) :
    keys.getD (findPos j keys) 0 = j := by
  induction keys with
  | nil => cases h
  | cons i is ih =>
    by_cases hij : i = j
    · simp [findPos, hij]
    · have hmem : j ∈ is := by
        rcases List.mem_cons.mp h with h1 | h2
        · exact absurd h1.symm hij
        · exact h2
      simp only [findPos, if_neg hij, List.getD_cons_succ]
      exact ih hmem

lemma findPos_getElem {keys : List ℕ} (hnd : keys.Nodup) {k : ℕ}
    (hk : k < keys.length) : findPos (keys.getD k 0) keys = k := by
  induction keys generalizing k with
  | nil => simp at hk
  | cons i is ih =>
    rw [List.nodup_cons] at hnd
    cases k with
    | zero => simp [findPos]
    | succ k =>
      have hk2 : k < is.length := by simpa using hk
      have hmem : is.getD k 0 ∈ is := by
        rw [List.getD_eq_getElem _ _ hk2]
        exact List.getElem_mem _
      have hne : i ≠ is.getD k 0 := fun h => hnd.1 (h ▸ hmem)
      simp only [List.getD_cons_succ, findPos, if_neg hne]
      rw [ih hnd.2 hk2]

lemma bhFdr_getD (ps : List ℚ) {j : ℕ} (hj : j < ps.length) :
    (bhFdr ps).getD j 1 = (bhQs ps).getD (findPos j (bhKeys ps)) 1 := by
  have hjk : j ∈ bhKeys ps := (bhKeys_mem ps).mpr hj
  have hpos := findPos_lt hjk
  have hkq : (bhKeys ps).length = (bhQs ps).length := by
    rw [bhKeys_length, bhQs_length]
  have hkzip : findPos j (bhKeys ps) < ((bhKeys ps).zip (bhQs ps)).length := by
    rw [List.length_zip, ← hkq, min_self]
    exact hpos
  have hposq : findPos j (bhKeys ps) < (bhQs ps).length := hkq ▸ hpos
  have hzip_elem : ((bhKeys ps).zip (bhQs ps))[findPos j (bhKeys ps)] =
      (j, (bhQs ps).getD (findPos j (bhKeys ps)) 1) := by
    rw [List.getElem_zip]
    have h1 : (bhKeys ps)[findPos j (bhKeys ps)] = j := by
      have := findPos_getD hjk
      rwa [List.getD_eq_getElem _ _ hpos] at this
    have h2 : (bhQs ps)[findPos j (bhKeys ps)] =
        (bhQs ps).getD (findPos j (bhKeys ps)) 1 := by
      rw [List.getD_eq_getElem _ _ hposq]
    rw [Prod.mk.injEq]
    exact ⟨h1, h2⟩
  have hmem : (j, (bhQs ps).getD (findPos j (bhKeys ps)) 1) ∈
      ((bhKeys ps).zip (bhQs ps)).reverse := by
    rw [List.mem_reverse, ← hzip_elem]
    exact List.getElem_mem _
  rw [bhFdr_def]
  refine scatter_getD_of_mem 1 _ _ _ _ hmem ?_ ?_
  · rw [List.map_reverse, List.nodup_reverse, List.map_fst_zip _ _ (le_of_eq hkq)]
    exact bhKeys_nodup ps
  · rw [List.length_replicate]
    exact hj

lemma sorted_headD_le {l : List ℚ} (hs : List.Sorted (fun x y : ℚ => x ≤ y) l)
    {y : ℚ} (hy : y ∈ l) (d : ℚ) : l.headD d ≤ y := by
  cases l with
  | nil => cases hy
  | cons x t =>
    rcases List.mem_cons.mp hy with rfl | hy2
    · exact le_refl _
    · exact List.rel_of_sorted_cons hs _ hy2

lemma clampDesc_sorted (l : List ℚ) :
    List.Sorted (fun x y : ℚ => x ≤ y) (clampDesc l) := by
  induction l with
  | nil => exact List.sorted_nil
  | cons x xs ih =>
    rw [clampDesc, List.sorted_cons]
    refine ⟨fun b hb => ?_, ih⟩
    rw [qmin_eq_min]
    exact le_trans (min_le_right _ _) (sorted_headD_le ih hb 1)

/-- C2: the q-values of bhFdr, read back in the order of the sorted view
(ascending original p-value, the order the code itself uses), form a
non-decreasing sequence; the first conjunct records that this view is
indeed sorted by ascending p. -/
theorem bhFdr_monotone_in_p (ps : List ℚ) :
    List.Sorted (fun x y : ℚ => x ≤ y) ((sortPairs ps).map Prod.snd) ∧
      List.Sorted (fun x y : ℚ => x ≤ y)
        ((sortPairs ps).map (fun pr => (bhFdr ps).getD pr.1 1)) := by
  constructor
  · exact List.Pairwise.map Prod.snd (fun a b h => h)
      (List.sorted_insertionSort (fun x y : ℕ × ℚ => x.2 ≤ y.2) ps.enum)
  · have heq : (sortPairs ps).map (fun pr => (bhFdr ps).getD pr.1 1) = bhQs ps := by
      apply List.ext_getElem
      · rw [List.length_map, sortPairs_length, bhQs_length]
      · intro k h1 h2
        rw [List.length_map] at h1
        have hk : k < (bhKeys ps).length := by
          rw [bhKeys_length, ← sortPairs_length]
          exact h1
        have hfst : (bhKeys ps)[k] = ((sortPairs ps)[k]).1 := by
          simp only [bhKeys, List.getElem_map]
        have hjlt : (bhKeys ps)[k] < ps.length := by
          rw [← bhKeys_mem ps]
          exact List.getElem_mem _
        rw [List.getElem_map, ← hfst, bhFdr_getD ps hjlt]
        have hgetd : (bhKeys ps).getD k 0 = (bhKeys ps)[k] :=
          List.getD_eq_getElem _ _ hk
        rw [← hgetd, findPos_getElem (bhKeys_nodup ps) hk,
          List.getD_eq_getElem _ _ h2]
    rw [heq, bhQs]
    exact clampDesc_sorted _

/-! ### The value characterization of bhFdr -/

lemma sortedVals_sorted (ps : List ℚ) :
    List.Sorted (fun x y : ℚ => x ≤ y) (sortedVals ps) :=
  List.sorted_insertionSort _ _

lemma sortedVals_perm (ps : List ℚ) : List.Perm (sortedVals ps) ps :=
  List.perm_insertionSort _ _

lemma sortedVals_length (ps : List ℚ) : (sortedVals ps).length = ps.length := by
  rw [sortedVals, List.length_insertionSort]

lemma sortPairs_map_snd (ps : List ℚ) :
    (sortPairs ps).map Prod.snd = sortedVals ps := by
  refine List.eq_of_perm_of_sorted ?_ ?_ (sortedVals_sorted ps)
  · refine List.Perm.trans ?_ (sortedVals_perm ps).symm
    have h1 : List.Perm ((sortPairs ps).map Prod.snd) (ps.enum.map Prod.snd) :=
      (sortPairs_perm ps).map Prod.snd
    rwa [List.enum_map_snd] at h1
  · exact List.Pairwise.map Prod.snd (fun a b h => h)
      (List.sorted_insertionSort (fun x y : ℕ × ℚ => x.2 ≤ y.2) ps.enum)

lemma bhQs_eq (ps : List ℚ) :
    bhQs ps = clampDesc (rawQs ps.length (sortedVals ps)) := by
  rw [bhQs, sortPairs_map_snd]

lemma headD_eq_getD (l : List ℚ) (d : ℚ) : l.headD d = l.getD 0 d := by
  cases l <;> rfl

lemma rawQs_getD {m : ℕ} {vals : List ℚ} {k : ℕ} (hk : k < vals.length) :
    (rawQs m vals).getD k 1 = vals.getD k 0 * (m : ℚ) / ((k : ℚ) + 1) := by
  have hk2 : k < (rawQs m vals).length := by rwa [rawQs_length]
  rw [List.getD_eq_getElem _ _ hk2]
  simp only [rawQs, List.getElem_map, List.getElem_enum]
  rw [List.getD_eq_getElem _ _ hk]

lemma clampDesc_getD_rec (l : List ℚ) {k : ℕ} (hk : k < l.length) :
    (clampDesc l).getD k 1 = qmin (l.getD k 1) ((clampDesc l).getD (k + 1) 1) := by
  induction l generalizing k with
  | nil => simp at hk
  | cons x xs ih =>
    cases k with
    | zero =>
      rw [clampDesc, List.getD_cons_zero, List.getD_cons_zero, List.getD_cons_succ,
        headD_eq_getD]
    | succ k =>
      have hk2 : k < xs.length := by simpa using hk
      rw [clampDesc, List.getD_cons_succ, List.getD_cons_succ, List.getD_cons_succ,
        ih hk2]

lemma clampDesc_getD_le (l : List ℚ) {k : ℕ} (hk : k < l.length) :
    (clampDesc l).getD k 1 ≤ l.getD k 1 := by
  rw [clampDesc_getD_rec l hk, qmin_eq_min]
  exact min_le_left _ _

lemma clamp_run_step {m : ℕ} {vals : List ℚ} {v : ℚ} {k : ℕ}
    (hk1 : k + 1 < vals.length) (hv : vals.getD k 0 = v)
    (hv1 : vals.getD (k + 1) 0 = v) (h0 : 0 ≤ v) :
    (clampDesc (rawQs m vals)).getD k 1 = (clampDesc (rawQs m vals)).getD (k + 1) 1 := by
  have hk : k < vals.length := by omega
  have hlen : k < (rawQs m vals).length := by rwa [rawQs_length]
  rw [clampDesc_getD_rec (rawQs m vals) hlen, qmin_eq_min]
  refine min_eq_right ?_
  have hle1 : (clampDesc (rawQs m vals)).getD (k + 1) 1 ≤ (rawQs m vals).getD (k + 1) 1 :=
    clampDesc_getD_le _ (by rwa [rawQs_length])
  have he1 : (rawQs m vals).getD (k + 1) 1 = v * (m : ℚ) / ((k : ℚ) + 1 + 1) := by
    rw [rawQs_getD hk1, hv1]
    norm_num
  have he0 : (rawQs m vals).getD k 1 = v * (m : ℚ) / ((k : ℚ) + 1) := by
    rw [rawQs_getD hk, hv]
  have hmono : v * (m : ℚ) / ((k : ℚ) + 1 + 1) ≤ v * (m : ℚ) / ((k : ℚ) + 1) := by
    apply div_le_div_of_nonneg_left (by positivity) (by positivity)
    norm_num
  rw [he0]
  calc (clampDesc (rawQs m vals)).getD (k + 1) 1
      ≤ v * (m : ℚ) / ((k : ℚ) + 1 + 1) := he1 ▸ hle1
    _ ≤ v * (m : ℚ) / ((k : ℚ) + 1) := hmono

lemma clamp_run_const {m : ℕ} {vals : List ℚ} {v : ℚ} (h0 : 0 ≤ v) (k1 : ℕ) :
    ∀ k2, k1 ≤ k2 → k2 < vals.length → (∀ k, k1 ≤ k → k ≤ k2 → vals.getD k 0 = v) →
      (clampDesc (rawQs m vals)).getD k1 1 = (clampDesc (rawQs m vals)).getD k2 1 := by
  intro k2
  induction k2 with
  | zero =>
    intro h1 _ _
    interval_cases k1
    rfl
  | succ k2 ih =>
    intro h1 h2 h3
    rcases Nat.lt_or_ge k1 (k2 + 1) with hlt | hge
    · have hk1k2 : k1 ≤ k2 := by omega
      rw [ih hk1k2 (by omega) (fun k hk hk2 => h3 k hk (by omega))]
      exact clamp_run_step h2 (h3 k2 hk1k2 (by omega)) (h3 (k2 + 1) (by omega) (le_refl _)) h0
    · have : k1 = k2 + 1 := by omega
      subst this
      rfl

lemma countLt_le_of_not_lt {l : List ℚ} (hs : List.Sorted (fun x y : ℚ => x ≤ y) l)
    {v : ℚ} {k : ℕ} (hk : k < l.length) (hnlt : ¬ l.getD k 0 < v) :
    countLt l v ≤ k := by
  induction l generalizing k with
  | nil => simp at hk
  | cons x xs ih =>
    rw [List.sorted_cons] at hs
    cases k with
    | zero =>
      rw [List.getD_cons_zero] at hnlt
      have hxs : ∀ y ∈ xs, ¬ y < v := by
        intro y hy hvy
        exact hnlt (lt_of_le_of_lt (hs.1 y hy) hvy)
      have h0 : List.countP (fun p => decide (p < v)) xs = 0 := by
        rw [List.countP_eq_zero]
        intro a ha
        simpa using hxs a ha
      rw [countLt, List.countP_cons]
      simp [h0, hnlt]
    | succ k =>
      rw [List.getD_cons_succ] at hnlt
      have hk2 : k < xs.length := by simpa using hk
      have := ih hs.2 hk2 hnlt
      rw [countLt, List.countP_cons]
      rw [countLt] at this
      split <;> omega

lemma lt_countLt_of_lt {l : List ℚ} (hs : List.Sorted (fun x y : ℚ => x ≤ y) l)
    {v : ℚ} {k : ℕ} (hk : k < l.length) (hlt : l.getD k 0 < v) :
    k < countLt l v := by
  induction l generalizing k with
  | nil => simp at hk
  | cons x xs ih =>
    rw [List.sorted_cons] at hs
    cases k with
    | zero =>
      rw [List.getD_cons_zero] at hlt
      rw [countLt, List.countP_cons]
      simp [hlt]
    | succ k =>
      rw [List.getD_cons_succ] at hlt
      have hk2 : k < xs.length := by simpa using hk
      have hmem : xs.getD k 0 ∈ xs := by
        rw [List.getD_eq_getElem _ _ hk2]
        exact List.getElem_mem _
      have hxlt : x < v := lt_of_le_of_lt (hs.1 _ hmem) hlt
      have := ih hs.2 hk2 hlt
      have hd : (decide (x < v)) = true := decide_eq_true hxlt
      rw [countLt, List.countP_cons, hd, if_pos rfl]
      rw [countLt] at this
      omega

lemma getD_eq_v_between {l : List ℚ} (hs : List.Sorted (fun x y : ℚ => x ≤ y) l)
    {v : ℚ} {k0 : ℕ} (hk0 : k0 < l.length) (hv : l.getD k0 0 = v) {k : ℕ}
    (hc : countLt l v ≤ k) (hk : k ≤ k0) : l.getD k 0 = v := by
  have hklen : k < l.length := lt_of_le_of_lt hk hk0
  refine le_antisymm ?_ ?_
  · have := List.Sorted.rel_get_of_le hs
      (a := ⟨k, hklen⟩) (b := ⟨k0, hk0⟩) hk
    rw [List.getD_eq_getElem _ _ hklen, List.getD_eq_getElem _ _ hk0] at *
    rw [← hv]
    exact this
  · by_contra hlt
    push_neg at hlt
    exact absurd (lt_countLt_of_lt hs hklen hlt) (by omega)

lemma eq_of_fst_nodup {α β : Type} {l : List (α × β)} (hnd : (l.map Prod.fst).Nodup) :
    ∀ x ∈ l, ∀ y ∈ l, x.1 = y.1 → x = y := by
  induction l with
  | nil => intro x hx; cases hx
  | cons w ws ih =>
    rw [List.map_cons, List.nodup_cons] at hnd
    intro x hx y hy hxy
    rcases List.mem_cons.mp hx with rfl | hx2
    · rcases List.mem_cons.mp hy with rfl | hy2
      · rfl
      · exact absurd (hxy ▸ List.mem_map_of_mem Prod.fst hy2) hnd.1
    · rcases List.mem_cons.mp hy with rfl | hy2
      · exact absurd (hxy ▸ List.mem_map_of_mem Prod.fst hx2) hnd.1
      · exact ih hnd.2 x hx2 y hy2 hxy

lemma sortPairs_findPos (ps : List ℚ) {j : ℕ} (hj : j < ps.length) :
    (sortPairs ps).getD (findPos j (bhKeys ps)) (0, 0) = (j, ps.getD j 0) := by
  have hjk : j ∈ bhKeys ps := (bhKeys_mem ps).mpr hj
  have hpos : findPos j (bhKeys ps) < (bhKeys ps).length := findPos_lt hjk
  have hpos2 : findPos j (bhKeys ps) < (sortPairs ps).length := by
    rwa [bhKeys_length, ← sortPairs_length] at hpos
  have h1 : ((sortPairs ps)[findPos j (bhKeys ps)]).1 = j := by
    have h2 := findPos_getD hjk
    rw [List.getD_eq_getElem _ _ hpos] at h2
    simp only [bhKeys, List.getElem_map] at h2
    exact h2
  have hPmem : (sortPairs ps)[findPos j (bhKeys ps)] ∈ sortPairs ps :=
    List.getElem_mem _
  have henum : (j, ps.getD j 0) ∈ sortPairs ps := by
    rw [(sortPairs_perm ps).mem_iff, List.getD_eq_getElem _ _ hj]
    have hje : j < ps.enum.length := by rwa [List.enum_length]
    have he : ps.enum[j] = (j, ps[j]) :=
      List.getElem_enum _ _ _
    rw [← he]
    exact List.getElem_mem _
  have hnodup : ((sortPairs ps).map Prod.fst).Nodup := bhKeys_nodup ps
  rw [List.getD_eq_getElem _ _ hpos2]
  exact eq_of_fst_nodup hnodup _ hPmem _ henum (by rw [h1])

/-- The central characterization: for non-negative inputs, the q-value
bhFdr returns at each position is a function of the p-value there and of
the multiset of all p-values. -/
lemma bhFdr_eq_map_valueQ (ps : List ℚ) (hps : ∀ p ∈ ps, 0 ≤ p) :
    bhFdr ps = ps.map (fun p => valueQ ps p) := by
  apply List.ext_getElem
  · rw [bhFdr_length, List.length_map]
  · intro j h1 h2
    have hj : j < ps.length := by rwa [bhFdr_length] at h1
    rw [List.getElem_map, ← List.getD_eq_getElem (bhFdr ps) 1 h1, bhFdr_getD ps hj]
    have hjk : j ∈ bhKeys ps := (bhKeys_mem ps).mpr hj
    have hk0 : findPos j (bhKeys ps) < (bhKeys ps).length := findPos_lt hjk
    have hk0v : findPos j (bhKeys ps) < (sortedVals ps).length := by
      rwa [sortedVals_length, ← bhKeys_length]
    have hk0p : findPos j (bhKeys ps) < (sortPairs ps).length := by
      rwa [sortPairs_length, ← bhKeys_length]
    have hk0m : findPos j (bhKeys ps) < (List.map Prod.snd (sortPairs ps)).length := by
      rw [List.length_map, sortPairs_length]
      rwa [bhKeys_length] at hk0
    have hvals_at_k0 : (sortedVals ps).getD (findPos j (bhKeys ps)) 0 = ps[j] := by
      rw [← sortPairs_map_snd]
      rw [List.getD_eq_getElem _ _ hk0m, List.getElem_map]
      have hP := sortPairs_findPos ps hj
      rw [List.getD_eq_getElem _ _ hk0p] at hP
      rw [hP, List.getD_eq_getElem _ _ hj]
    have hcount : countLt (sortedVals ps) (ps[j]) = countLt ps (ps[j]) := by
      rw [countLt, countLt]
      exact (sortedVals_perm ps).countP_eq _
    have hcle : countLt (sortedVals ps) (ps[j]) ≤ findPos j (bhKeys ps) :=
      countLt_le_of_not_lt (sortedVals_sorted ps) hk0v
        (by rw [hvals_at_k0]; exact lt_irrefl _)
    have hnn : (0 : ℚ) ≤ ps[j] := hps _ (List.getElem_mem hj)
    have hconst := clamp_run_const (m := ps.length) hnn
      (countLt (sortedVals ps) (ps[j])) (findPos j (bhKeys ps)) hcle hk0v
      (fun k hc hk => getD_eq_v_between (sortedVals_sorted ps) hk0v hvals_at_k0 hc hk)
    rw [bhQs_eq, ← hconst, valueQ, ← hcount]

lemma valueQ_perm {ps qs : List ℚ} (h : List.Perm ps qs) (v : ℚ) :
    valueQ ps v = valueQ qs v := by
  rw [valueQ, valueQ]
  have hlen : ps.length = qs.length := h.length_eq
  have hsv : sortedVals ps = sortedVals qs := by
    refine List.eq_of_perm_of_sorted ?_ (sortedVals_sorted ps) (sortedVals_sorted qs)
    exact ((sortedVals_perm ps).trans h).trans (sortedVals_perm qs).symm
  have hcnt : countLt ps v = countLt qs v := by
    rw [countLt, countLt]
    exact h.countP_eq _
  rw [hlen, hsv, hcnt]

/-- C3: bhFdr is index-aligned and permutation-equivariant on p-value
lists (entries non-negative, as p-values are): feeding in the input
permuted by sigma returns, at each position i, exactly the q-value the
original call produced at position sigma i. -/
theorem bhFdr_perm_equivariant {n : ℕ} (g : Fin n → ℚ) (hg : ∀ i, 0 ≤ g i)
    (σ : Equiv.Perm (Fin n)) :
    bhFdr (List.ofFn (fun i => g (σ i))) =
      List.ofFn (fun i => (bhFdr (List.ofFn g)).getD (σ i) 1) := by
  have hperm : List.Perm (List.ofFn (fun i => g (σ i))) (List.ofFn g) := by
    rw [List.ofFn_eq_map, List.ofFn_eq_map]
    have h1 : List.map (fun i => g (σ i)) (List.finRange n) =
        List.map g (List.map σ (List.finRange n)) := by
      rw [List.map_map]
      rfl
    rw [h1]
    refine List.Perm.map g ?_
    refine (List.perm_ext_iff_of_nodup ((List.nodup_finRange n).map σ.injective)
      (List.nodup_finRange n)).mpr ?_
    intro a
    constructor
    · intro _
      exact List.mem_finRange a
    · intro _
      exact List.mem_map.mpr ⟨σ.symm a, List.mem_finRange _, Equiv.apply_symm_apply σ a⟩
  have hg2 : ∀ p ∈ List.ofFn g, 0 ≤ p := by
    intro p hp
    rw [List.mem_ofFn] at hp
    rcases hp with ⟨i, rfl⟩
    exact hg i
  have hg1 : ∀ p ∈ List.ofFn (fun i => g (σ i)), 0 ≤ p := fun p hp =>
    hg2 p (hperm.subset hp)
  have hval : ∀ v, valueQ (List.ofFn (fun i => g (σ i))) v = valueQ (List.ofFn g) v :=
    fun v => valueQ_perm hperm v
  simp only [bhFdr_eq_map_valueQ _ hg1, bhFdr_eq_map_valueQ _ hg2]
  apply List.ext_getElem
  · simp [List.length_ofFn]
  · intro k h1 h2
    have hmap : ∀ i : Fin n,
        (List.map (fun p => valueQ (List.ofFn g) p) (List.ofFn g)).getD (i : ℕ) 1 =
          valueQ (List.ofFn g) (g i) := by
      intro i
      have hlt : (i : ℕ) <
          (List.map (fun p => valueQ (List.ofFn g) p) (List.ofFn g)).length := by
        rw [List.length_map, List.length_ofFn]
        exact i.isLt
      rw [List.getD_eq_getElem _ _ hlt]
      simp only [List.getElem_map, List.getElem_ofFn, Fin.eta]
    simp only [List.getElem_map, List.getElem_ofFn, hval, hmap]

/-- Witness for C3: the swap permutation on the concrete non-negative
input [0.5, 0.2]. -/
theorem bhFdr_perm_equivariant_witness :
    bhFdr (List.ofFn (fun i : Fin 2 => (![(0.5 : ℚ), 0.2]) ((Equiv.swap 0 1) i))) =
      List.ofFn (fun i : Fin 2 =>
        (bhFdr (List.ofFn ![(0.5 : ℚ), 0.2])).getD (((Equiv.swap 0 1 : Equiv.Perm (Fin 2)) i) : ℕ) 1) :=
  bhFdr_perm_equivariant ![(0.5 : ℚ), 0.2]
    (by intro i; fin_cases i <;> norm_num) (Equiv.swap 0 1)

/-! ### Structure of computeEnrichment -/

lemma computeEnrichment_def (tfTargets : List (String × List String))
    (pathwayGenes univ : List String) :
    computeEnrichment tfTargets pathwayGenes univ =
      List.insertionSort resultLE
        (List.zipWith (fun r q => { r with fdr := q })
          (tfTargets.foldl (enrichmentStep univ (restrictToUniverse pathwayGenes univ)) [])
          (bhFdr ((tfTargets.foldl
            (enrichmentStep univ (restrictToUniverse pathwayGenes univ)) []).map
              (fun r => r.pValue)))) := rfl

/-- C8: the list computeEnrichment returns is sorted by the final
comparator: ascending p-value, and among entries with equal p-values the
overlap counts are non-increasing (so an overlap-5 row precedes an
overlap-3 row with the same p-value). -/
theorem computeEnrichment_ranked (tfTargets : List (String × List String))
    (pathwayGenes univ : List String) :
    List.Pairwise (fun x y : EnrichmentResult =>
      x.pValue < y.pValue ∨ (x.pValue = y.pValue ∧ y.overlap ≤ x.overlap))
      (computeEnrichment tfTargets pathwayGenes univ) := by
  rw [computeEnrichment_def]
  exact List.sorted_insertionSort resultLE _

lemma zipWith_fdr_tf (l1 : List EnrichmentResult) (l2 : List ℚ) :
    ∀ r ∈ List.zipWith (fun r q => { r with fdr := q }) l1 l2,
      ∃ r0 ∈ l1, r.tf = r0.tf := by
  induction l1 generalizing l2 with
  | nil => intro r hr; simp at hr
  | cons x xs ih =>
    cases l2 with
    | nil => intro r hr; simp at hr
    | cons q qs =>
      intro r hr
      rw [List.zipWith_cons_cons] at hr
      rcases List.mem_cons.mp hr with rfl | hr2
      · exact ⟨x, List.mem_cons_self _ _, rfl⟩
      · rcases ih qs r hr2 with ⟨r0, h0, he⟩
        exact ⟨r0, List.mem_cons_of_mem _ h0, he⟩

lemma enrichmentStep_fold_mem (univ pathway : List String) :
    ∀ (l : List (String × List String)) (acc : List EnrichmentResult) r,
      r ∈ l.foldl (enrichmentStep univ pathway) acc →
        r ∈ acc ∨ ∃ e ∈ l, r.tf = e.1 ∧
          restrictToUniverse e.2 univ ≠ [] ∧ pathway ≠ [] := by
  intro l
  induction l with
  | nil => intro acc r hr; exact Or.inl hr
  | cons e l ih =>
    intro acc r hr
    rw [List.foldl_cons] at hr
    rcases ih _ r hr with hin | ⟨e2, he2, h⟩
    · rw [enrichmentStep] at hin
      split at hin
      · exact Or.inl hin
      · rcases List.mem_append.mp hin with hin2 | hin2
        · exact Or.inl hin2
        · rw [List.mem_singleton] at hin2
          subst hin2
          rename_i hcond
          push_neg at hcond
          refine Or.inr ⟨e, List.mem_cons_self _ _, rfl, ?_, ?_⟩
          · intro hcontra
            exact hcond.1 (by rw [hcontra]; rfl)
          · intro hcontra
            exact hcond.2 (by rw [hcontra]; rfl)
    · exact Or.inr ⟨e2, List.mem_cons_of_mem _ he2, h⟩

set_option maxRecDepth 4000 in
/-- C5: computeEnrichment contributes no result row for a TF whose
universe-restricted target set is empty, and none at all when the
universe-restricted term gene set is empty; and on the spec's concrete
input the result is exactly one row, for TF2. -/
theorem computeEnrichment_skips_degenerate :
    (∀ (tfTargets : List (String × List String)) (pathwayGenes univ : List String),
      (tfTargets.map Prod.fst).Nodup → ∀ tf targets, (tf, targets) ∈ tfTargets →
        (restrictToUniverse targets univ = [] ∨
          restrictToUniverse pathwayGenes univ = []) →
        ∀ r ∈ computeEnrichment tfTargets pathwayGenes univ, r.tf ≠ tf) ∧
    (computeEnrichment [("TF1", []), ("TF2", ["G1"])] ["G1"] ["G1", "G2"]).map
      (fun r => r.tf) = ["TF2"] := by
  constructor
  · intro tfTargets pathwayGenes univ hkeys tf targets hmem hdeg r hr heq
    rw [computeEnrichment_def] at hr
    rw [List.mem_insertionSort] at hr
    rcases zipWith_fdr_tf _ _ r hr with ⟨r0, hr0, htf⟩
    rcases enrichmentStep_fold_mem univ _ _ _ r0 hr0 with hin | ⟨e, he, htf2, hne, hpne⟩
    · cases hin
    · rcases hdeg with hdt | hdp
      · have he2 : e = (tf, targets) := by
          refine eq_of_fst_nodup hkeys e he (tf, targets) hmem ?_
          rw [← htf2, ← htf, heq]
        rw [he2] at hne
        exact hne hdt
      · exact hpne hdp
  · with_unfolding_all decide

/-- Witness for C5: the concrete input of the spec, where TF1's restricted
target set is empty; TF1 contributes no row and the single row is TF2's. -/
theorem computeEnrichment_skips_degenerate_witness :
    (∀ r ∈ computeEnrichment [("TF1", []), ("TF2", ["G1"])] ["G1"] ["G1", "G2"],
      r.tf ≠ "TF1") ∧
    (computeEnrichment [("TF1", []), ("TF2", ["G1"])] ["G1"] ["G1", "G2"]).map
      (fun r => r.tf) = ["TF2"] :=
  ⟨fun r hr => computeEnrichment_skips_degenerate.1 _ _ _ (by decide) "TF1" []
      (by decide) (Or.inl rfl) r hr,
    computeEnrichment_skips_degenerate.2⟩

/-! ### The contingency-table invariant -/

lemma restrict_aux (univ genes : List String) :
    ∀ acc : List String, acc.Nodup → (∀ x ∈ acc, x ∈ univ) →
      (genes.foldl (fun acc g =>
        let gene := g.toUpper
        if gene ∈ univ then (if gene ∈ acc then acc else acc ++ [gene]) else acc)
          acc).Nodup ∧
      ∀ x ∈ genes.foldl (fun acc g =>
        let gene := g.toUpper
        if gene ∈ univ then (if gene ∈ acc then acc else acc ++ [gene]) else acc)
          acc, x ∈ univ := by
  induction genes with
  | nil => intro acc h1 h2; exact ⟨h1, h2⟩
  | cons g gs ih =>
    intro acc h1 h2
    rw [List.foldl_cons]
    dsimp only
    by_cases hu : g.toUpper ∈ univ
    · by_cases hacc : g.toUpper ∈ acc
      · rw [if_pos hu, if_pos hacc]
        exact ih acc h1 h2
      · rw [if_pos hu, if_neg hacc]
        refine ih (acc ++ [g.toUpper]) ?_ ?_
        · rw [List.nodup_append]
          refine ⟨h1, List.nodup_singleton _, ?_⟩
          intro x hx hx2
          rw [List.mem_singleton] at hx2
          subst hx2
          exact hacc hx
        · intro x hx
          rcases List.mem_append.mp hx with hx2 | hx2
          · exact h2 x hx2
          · rw [List.mem_singleton] at hx2
            subst hx2
            exact hu
    · rw [if_neg hu]
      exact ih acc h1 h2

lemma restrictToUniverse_nodup (genes univ : List String) :
    (restrictToUniverse genes univ).Nodup :=
  (restrict_aux univ genes [] List.nodup_nil (fun x hx => absurd hx (List.not_mem_nil x))).1

lemma restrictToUniverse_subset (genes univ : List String) :
    ∀ x ∈ restrictToUniverse genes univ, x ∈ univ :=
  (restrict_aux univ genes [] List.nodup_nil (fun x hx => absurd hx (List.not_mem_nil x))).2

lemma contingency_a_def (t p : List String) (u : ℕ) :
    Contingency.a (contingencyTable t p u) =
      (t.filter (fun g => decide (g ∈ p))).length := rfl

lemma contingency_b_def (t p : List String) (u : ℕ) :
    Contingency.b (contingencyTable t p u) =
      t.length - (t.filter (fun g => decide (g ∈ p))).length := rfl

lemma contingency_c_def (t p : List String) (u : ℕ) :
    Contingency.c (contingencyTable t p u) =
      p.length - (t.filter (fun g => decide (g ∈ p))).length := rfl

lemma contingency_d_def (t p : List String) (u : ℕ) :
    Contingency.d (contingencyTable t p u) =
      u - (t.filter (fun g => decide (g ∈ p))).length -
        (t.length - (t.filter (fun g => decide (g ∈ p))).length) -
        (p.length - (t.filter (fun g => decide (g ∈ p))).length) := rfl

lemma inter_card_facts (targetGenes pathway univ : List String)
    (hTnd : targetGenes.Nodup) (hPnd : pathway.Nodup) (hU : univ.Nodup)
    (hTsub : ∀ x ∈ targetGenes, x ∈ univ) (hPsub : ∀ x ∈ pathway, x ∈ univ) :
    (targetGenes.filter (fun g => decide (g ∈ pathway))).length ≤ pathway.length ∧
      targetGenes.length + pathway.length ≤
        univ.length + (targetGenes.filter (fun g => decide (g ∈ pathway))).length := by
  classical
  have hfil_nd : (targetGenes.filter (fun g => decide (g ∈ pathway))).Nodup :=
    hTnd.filter _
  have hfil_sub : targetGenes.filter (fun g => decide (g ∈ pathway)) ⊆ pathway := by
    intro x hx
    have := List.of_mem_filter hx
    exact of_decide_eq_true this
  constructor
  · exact (hfil_nd.subperm hfil_sub).length_le
  · have hA : targetGenes.toFinset.card = targetGenes.length :=
      List.toFinset_card_of_nodup hTnd
    have hB : pathway.toFinset.card = pathway.length :=
      List.toFinset_card_of_nodup hPnd
    have hUc : univ.toFinset.card = univ.length :=
      List.toFinset_card_of_nodup hU
    have hInterSet : (targetGenes.filter (fun g => decide (g ∈ pathway))).toFinset =
        targetGenes.toFinset ∩ pathway.toFinset := by
      ext x
      simp only [List.mem_toFinset, List.mem_filter, Finset.mem_inter,
        decide_eq_true_eq]
    have hInter : (targetGenes.toFinset ∩ pathway.toFinset).card =
        (targetGenes.filter (fun g => decide (g ∈ pathway))).length := by
      rw [← hInterSet, List.toFinset_card_of_nodup hfil_nd]
    have hsubU : targetGenes.toFinset ∪ pathway.toFinset ⊆ univ.toFinset := by
      intro x hx
      rw [Finset.mem_union] at hx
      rw [List.mem_toFinset]
      rcases hx with hx | hx
      · exact hTsub x (List.mem_toFinset.mp hx)
      · exact hPsub x (List.mem_toFinset.mp hx)
    have hcard_le : (targetGenes.toFinset ∪ pathway.toFinset).card ≤ univ.toFinset.card :=
      Finset.card_le_card hsubU
    have hsum := Finset.card_union_add_card_inter targetGenes.toFinset pathway.toFinset
    omega

/-- C6: for every TF entry of the map, the contingency table
computeEnrichment builds from the universe-restricted target and term
sets satisfies a = |targetGenes ∩ pathway|, b = |targetGenes| - a,
c = |pathway| - a, d = |universe| - a - b - c as integers (so all four
cells are non-negative and no Nat subtraction truncates), and the four
cells sum to the universe size. -/
theorem computeEnrichment_contingency_invariant
    (tfTargets : List (String × List String)) (pathwayGenes univ : List String)
    (hU : univ.Nodup) (tf : String) (targets : List String)
    (hmem : (tf, targets) ∈ tfTargets) :
    Contingency.a (tfContingency targets pathwayGenes univ) =
      ((restrictToUniverse targets univ).filter
        (fun g => decide (g ∈ restrictToUniverse pathwayGenes univ))).length ∧
    (Contingency.b (tfContingency targets pathwayGenes univ) : ℤ) =
      ((restrictToUniverse targets univ).length : ℤ) -
        (Contingency.a (tfContingency targets pathwayGenes univ) : ℤ) ∧
    (Contingency.c (tfContingency targets pathwayGenes univ) : ℤ) =
      ((restrictToUniverse pathwayGenes univ).length : ℤ) -
        (Contingency.a (tfContingency targets pathwayGenes univ) : ℤ) ∧
    (Contingency.d (tfContingency targets pathwayGenes univ) : ℤ) =
      (univ.length : ℤ) -
        (Contingency.a (tfContingency targets pathwayGenes univ) : ℤ) -
        (Contingency.b (tfContingency targets pathwayGenes univ) : ℤ) -
        (Contingency.c (tfContingency targets pathwayGenes univ) : ℤ) ∧
    (Contingency.a (tfContingency targets pathwayGenes univ) : ℤ) +
      (Contingency.b (tfContingency targets pathwayGenes univ) : ℤ) +
      (Contingency.c (tfContingency targets pathwayGenes univ) : ℤ) +
      (Contingency.d (tfContingency targets pathwayGenes univ) : ℤ) =
      (univ.length : ℤ) := by
  have hTnd : (restrictToUniverse targets univ).Nodup :=
    restrictToUniverse_nodup targets univ
  have hPnd : (restrictToUniverse pathwayGenes univ).Nodup :=
    restrictToUniverse_nodup pathwayGenes univ
  have hTsub : ∀ x ∈ restrictToUniverse targets univ, x ∈ univ :=
    restrictToUniverse_subset targets univ
  have hPsub : ∀ x ∈ restrictToUniverse pathwayGenes univ, x ∈ univ :=
    restrictToUniverse_subset pathwayGenes univ
  obtain ⟨haP, hUnion⟩ := inter_card_facts (restrictToUniverse targets univ)
    (restrictToUniverse pathwayGenes univ) univ hTnd hPnd hU hTsub hPsub
  have haT : ((restrictToUniverse targets univ).filter
      (fun g => decide (g ∈ restrictToUniverse pathwayGenes univ))).length ≤
      (restrictToUniverse targets univ).length := List.length_filter_le _ _
  refine ⟨rfl, ?_, ?_, ?_, ?_⟩ <;>
    simp only [tfContingency, contingency_a_def, contingency_b_def,
      contingency_c_def, contingency_d_def] <;> omega

/-- Witness for C6 at the concrete example (universe {G1, G2} with no
duplicates, TF2 with target set {G1}, term gene set {G1}). -/
theorem computeEnrichment_contingency_invariant_witness :
    Contingency.a (tfContingency ["G1"] ["G1"] ["G1", "G2"]) =
      ((restrictToUniverse ["G1"] ["G1", "G2"]).filter
        (fun g => decide (g ∈ restrictToUniverse ["G1"] ["G1", "G2"]))).length ∧
    (Contingency.b (tfContingency ["G1"] ["G1"] ["G1", "G2"]) : ℤ) =
      ((restrictToUniverse ["G1"] ["G1", "G2"]).length : ℤ) -
        (Contingency.a (tfContingency ["G1"] ["G1"] ["G1", "G2"]) : ℤ) ∧
    (Contingency.c (tfContingency ["G1"] ["G1"] ["G1", "G2"]) : ℤ) =
      ((restrictToUniverse ["G1"] ["G1", "G2"]).length : ℤ) -
        (Contingency.a (tfContingency ["G1"] ["G1"] ["G1", "G2"]) : ℤ) ∧
    (Contingency.d (tfContingency ["G1"] ["G1"] ["G1", "G2"]) : ℤ) =
      ((["G1", "G2"] : List String).length : ℤ) -
        (Contingency.a (tfContingency ["G1"] ["G1"] ["G1", "G2"]) : ℤ) -
        (Contingency.b (tfContingency ["G1"] ["G1"] ["G1", "G2"]) : ℤ) -
        (Contingency.c (tfContingency ["G1"] ["G1"] ["G1", "G2"]) : ℤ) ∧
    (Contingency.a (tfContingency ["G1"] ["G1"] ["G1", "G2"]) : ℤ) +
      (Contingency.b (tfContingency ["G1"] ["G1"] ["G1", "G2"]) : ℤ) +
      (Contingency.c (tfContingency ["G1"] ["G1"] ["G1", "G2"]) : ℤ) +
      (Contingency.d (tfContingency ["G1"] ["G1"] ["G1", "G2"]) : ℤ) =
      ((["G1", "G2"] : List String).length : ℤ) :=
  computeEnrichment_contingency_invariant [("TF1", []), ("TF2", ["G1"])] ["G1"]
    ["G1", "G2"] (by decide) "TF2" ["G1"] (by decide)
